import Mathlib

/-!
Shallow embedding of the princeprocessor candidate generator (`src/pp.c`).

Words are byte lists; the word-bucket table `Db` maps a length `k` to the
ordered bucket `B_k` of loaded words of that length.  All `mpz_t`
arithmetic in the source is nonnegative arbitrary precision, modelled by
`Nat`.
-/

/-- A word: a sequence of bytes (`word_t.buf`, holding `input_len` bytes). -/
abbrev Word := List Nat

/-- The word-bucket table: `db k` is the ordered list of loaded words of
length `k` (`db_entry_t.words_buf` / `words_cnt` at index `k`). -/
abbrev Db := Nat → List Word

/-- `IN_LEN_MAX` from `pp.c`. -/
def IN_LEN_MAX : Nat := 16

/-- `DEF_WORDLEN_DIST_CNT` from `pp.c`. -/
def DEF_WORDLEN_DIST_CNT : Nat := 25

/-- `DEF_WORDLEN_DIST` from `pp.c`: the built-in word-length distribution. -/
def DEF_WORDLEN_DIST : List Nat :=
  [0, 15, 56, 350, 3315, 43721, 276252, 201748, 226412, 119885, 75075,
   26323, 13373, 6353, 3540, 1877, 972, 311, 151, 81, 66, 21, 16, 13, 13]

/-- The `wordlen_dist` table as filled in `main`: the wordlist-derived count
when `wl_dist_len` is set, otherwise the built-in distribution (1 for
lengths at or beyond the table size). -/
def wordlen_dist (db : Db) (wl_dist_len : Bool) (len : Nat) : Nat :=
  if wl_dist_len then (db len).length
  else if len < DEF_WORDLEN_DIST_CNT then DEF_WORDLEN_DIST.getD len 0
  else 1

/-- Recursive core of `elem_gen_with_idx`: walk the remaining `s` split
bits of `idx` (low bit first, as `(elems_idx >> elems_shr) & 1` does),
carrying the current accumulated part `elem_key`; emit the part and reset
to 1 on a set bit, increment on a clear bit, and emit the trailing part at
the end. -/
def elemGenGo : Nat → Nat → Nat → List Nat
  | 0, _, elem_key => [elem_key]
  | s + 1, idx, elem_key =>
      if idx % 2 = 1 then elem_key :: elemGenGo s (idx / 2) 1
      else elemGenGo s (idx / 2) (elem_key + 1)

/-- `elem_gen_with_idx` from `pp.c`: decode split-bitmask `idx` over `len1 =
n - 1` bit positions into the chain's part list (`elem_buf->buf` up to
`elem_buf->cnt`). -/
def elem_gen_with_idx (len1 idx : Nat) : List Nat :=
  elemGenGo len1 idx 1

/-- `elem_valid_with_db` from `pp.c`: a chain is valid iff every referenced
bucket is non-empty. -/
def elem_valid_with_db (c : List Nat) (db : Db) : Bool :=
  c.all fun k => decide (0 < (db k).length)

/-- `elem_valid_with_cnt_min` from `pp.c`. -/
def elem_valid_with_cnt_min (c : List Nat) (elem_cnt_min : Nat) : Bool :=
  decide (elem_cnt_min ≤ c.length)

/-- `elem_valid_with_cnt_max` from `pp.c`. -/
def elem_valid_with_cnt_max (c : List Nat) (elem_cnt_max : Nat) : Bool :=
  decide (c.length ≤ elem_cnt_max)

/-- The chain list stored for target length `n` by the `init elems` phase
of `main`: generate all `2^(n-1)` bitmask chains in index order and keep
exactly those passing the three validity filters. -/
def genChains (db : Db) (elem_cnt_min elem_cnt_max n : Nat) : List (List Nat) :=
  ((List.range (2 ^ (n - 1))).map (elem_gen_with_idx (n - 1))).filter
    fun c => elem_valid_with_db c db &&
             elem_valid_with_cnt_min c elem_cnt_min &&
             elem_valid_with_cnt_max c elem_cnt_max

/-- `elem_ks` from `pp.c`: the chain keyspace, a running product (starting
at 1) of the word counts of the referenced buckets. -/
def elem_ks (c : List Nat) (db : Db) : Nat :=
  c.foldl (fun acc k => acc * (db k).length) 1

/-- The lengths `pw_min .. pw_max` in increasing order, as the setup loops
iterate them. -/
def pwLengths (pw_min pw_max : Nat) : List Nat :=
  List.range' pw_min (pw_max + 1 - pw_min)

/-- `total_ks_cnt` as accumulated by the `Calculate keyspace stuff` loop of
`main` (before any `--limit` adjustment): the sum over the lengths in
`[pw_min, pw_max]` and over the stored chains of each length of the chain
keyspace. -/
def total_ks_cnt (db : Db) (elem_cnt_min elem_cnt_max pw_min pw_max : Nat) : Nat :=
  ((pwLengths pw_min pw_max).map fun n =>
    ((genChains db elem_cnt_min elem_cnt_max n).map fun c => elem_ks c db).sum).sum

/-- `elem_set_pwbuf` from `pp.c`: materialize the candidate for local
position `p` of a chain, part by part; each part takes the word at index
`p mod |B_k|` of its bucket and the position is floor-divided by the
bucket size. -/
def elem_set_pwbuf (c : List Nat) (db : Db) (p : Nat) : List Nat :=
  match c with
  | [] => []
  | k :: rest =>
      (db k).getD (p % (db k).length) [] ++
        elem_set_pwbuf rest db (p / (db k).length)

/-- The little-endian mixed-radix digit of `p` at part position `i` of
chain `c`: `⌊ p / Π_{j<i} |B_{p_j}| ⌋ mod |B_{p_i}|`. -/
def radixDigit (c : List Nat) (db : Db) (p i : Nat) : Nat :=
  (p / ((c.take i).map fun k => (db k).length).prod) % (db (c.getD i 0)).length

/-- The newline-terminated output line for local position `p` of a chain,
as `main` emits it (`pw_buf[pw_len] = '\n'`, then `out_push` of `pw_len + 1`
bytes). -/
def pwLine (c : List Nat) (db : Db) (p : Nat) : List Nat :=
  elem_set_pwbuf c db p ++ [10]

/-- A concrete three-word bucket table: `B_1 = ["a","b","c"]`. -/
def db3 : Db := fun k => if k = 1 then [[97], [98], [99]] else []

/-- The split bitmask whose canonical decoding is the given composition: a
set bit at the cumulative end of every part except the last. -/
def encChain : List Nat → Nat
  | [] => 0
  | [_] => 0
  | p :: rest => 2 ^ (p - 1) + 2 ^ p * encChain rest

/-- The `--skip` / `--limit` validation block of `main` (`seek to some
starting point`): reject `skip > total`, `limit > total` and
`skip + limit > total` with the diagnostics of the source, otherwise
return the effective total (`skip + limit` when a limit is given). -/
def validate (skip limit total : Nat) : Except String Nat :=
  if skip ≠ 0 ∧ total < skip then
    Except.error "Value of --skip must be smaller than total keyspace"
  else if limit ≠ 0 ∧ total < limit then
    Except.error "Value of --limit must be smaller than total keyspace"
  else if limit ≠ 0 ∧ total < skip + limit then
    Except.error "Value of --skip + --limit must be smaller than total keyspace"
  else Except.ok (if limit = 0 then total else skip + limit)

/-- `out_push` effect on the fill level `out->len`: add `pw_len`, then
flush (reset to 0) when the level has reached `BUFSIZ - 100`. -/
def out_push_len (bufsiz len pw_len : Nat) : Nat :=
  if bufsiz - 100 ≤ len + pw_len then 0 else len + pw_len

/-- An operation on the buffered writer. -/
inductive OutOp
  | push : Nat → OutOp
  | flush : OutOp
deriving DecidableEq

/-- The number of bytes an operation copies into the buffer. -/
def opLen : OutOp → Nat
  | OutOp.push pw => pw
  | OutOp.flush => 0

/-- Run a sequence of writer operations from fill level `len`, checking at
each push that its `memcpy` stays inside the `BUFSIZ`-byte buffer. -/
def outSafe (bufsiz : Nat) : Nat → List OutOp → Bool
  | _, [] => true
  | _, OutOp.flush :: ops => outSafe bufsiz 0 ops
  | len, OutOp.push pw :: ops =>
      decide (len + pw ≤ bufsiz) && outSafe bufsiz (out_push_len bufsiz len pw) ops

/-- `elem_t` as the enumeration loop uses it: the frozen part list and
keyspace, plus the advancing local cursor `ks_pos`. -/
structure ElemSt where
  parts : List Nat
  ks_cnt : Nat
  ks_pos : Nat
deriving DecidableEq

/-- The default `elem_t` for out-of-range lookups. -/
def defElem : ElemSt := ⟨[], 0, 0⟩

/-- One `db_entry_t` as the loop sees it through a `pw_order_t`: the
length, its `wordlen_dist` batch cap, the chain list and `elems_pos`. -/
structure DbSlot where
  len : Nat
  dist : Nat
  elems : List ElemSt
  elems_pos : Nat
deriving DecidableEq

/-- The initial slot for length `n` given its chain list: keyspaces from
`elem_ks`, cursors at 0 (`mpz_init_set_si (…, 0)`). -/
def mkSlot (db : Db) (wl_dist_len : Bool) (n : Nat) (chains : List (List Nat)) : DbSlot :=
  ⟨n, wordlen_dist db wl_dist_len n, chains.map fun c => ⟨c, elem_ks c db, 0⟩, 0⟩

/-- The loop body for one slot (one `order_pos` iteration of `main`):
`iter_max` is the chain's remaining keyspace capped by the slot's
`wordlen_dist` entry and by the remaining effective total; the batch
materializes `iter_max` candidates at consecutive local positions,
emitting those whose global position has reached `skip`; then the chain
cursor advances and an exhausted chain is reset and `elems_pos` bumped. -/
def slotBatch (db : Db) (skip total : Nat) (s : DbSlot) (tpos : Nat) :
    DbSlot × Nat × List (List Nat) :=
  let e := s.elems.getD s.elems_pos defElem
  let iter1 := e.ks_cnt - e.ks_pos
  let iter2 := if s.dist < iter1 then s.dist else iter1
  let iter_max := if total - tpos < iter2 then total - tpos else iter2
  let out := (List.range iter_max).filterMap fun i =>
    if skip ≤ tpos + i then some (pwLine e.parts db (e.ks_pos + i)) else none
  let done := e.ks_pos + iter_max = e.ks_cnt
  let e' : ElemSt := if done then ⟨e.parts, e.ks_cnt, 0⟩
                     else ⟨e.parts, e.ks_cnt, e.ks_pos + iter_max⟩
  let pos' := if done then s.elems_pos + 1 else s.elems_pos
  (⟨s.len, s.dist, s.elems.set s.elems_pos e', pos'⟩, tpos + iter_max, out)

/-- One pass of the inner `for (order_pos = 0; …)` loop over the ordered
slots: skip exhausted slots (`elems_pos == elems_cnt → continue`), run a
batch otherwise, and break out when the global position reaches the
effective total. -/
def runRound (db : Db) (skip total : Nat) :
    List DbSlot → Nat → List DbSlot × Nat × List (List Nat)
  | [], tpos => ([], tpos, [])
  | s :: rest, tpos =>
      if s.elems_pos = s.elems.length then
        let r := runRound db skip total rest tpos
        (s :: r.1, r.2.1, r.2.2)
      else
        let b := slotBatch db skip total s tpos
        if b.2.1 = total then (b.1 :: rest, b.2.1, b.2.2)
        else
          let r := runRound db skip total rest b.2.1
          (b.1 :: r.1, r.2.1, b.2.2 ++ r.2.2)

/-- The outer `while (total_ks_pos < total_ks_cnt)` loop, with explicit
fuel bounding the number of rounds (the source iterates unboundedly).
Returns the final slots and global position together with the emitted
lines in order. -/
def runLoop (db : Db) (skip total : Nat) :
    Nat → List DbSlot → Nat → (List DbSlot × Nat) × List (List Nat)
  | 0, slots, tpos => ((slots, tpos), [])
  | fuel + 1, slots, tpos =>
      if tpos < total then
        let r := runRound db skip total slots tpos
        let rest := runLoop db skip total fuel r.1 r.2.1
        (rest.1, r.2.2 ++ rest.2)
      else ((slots, tpos), [])

/-- Remaining keyspace of one chain. -/
def elemRem (e : ElemSt) : Nat := e.ks_cnt - e.ks_pos

/-- Remaining keyspace of a slot: the unfinished chains' remainders. -/
def slotRem (s : DbSlot) : Nat :=
  ((s.elems.drop s.elems_pos).map elemRem).sum

/-- Remaining keyspace of the whole state. -/
def slotsRem (l : List DbSlot) : Nat := (l.map slotRem).sum

/-- The loop-state well-formedness the setup establishes and every batch
preserves: `elems_pos` in range, positive chain keyspaces, cursors zero
away from the active chain, the active cursor strictly inside its chain,
and a positive batch cap while the slot is unfinished. -/
def SlotWF (s : DbSlot) : Prop :=
  s.elems_pos ≤ s.elems.length ∧
  (∀ e ∈ s.elems, 1 ≤ e.ks_cnt) ∧
  (∀ i ∈ List.range s.elems.length, i ≠ s.elems_pos →
    (s.elems.getD i defElem).ks_pos = 0) ∧
  (s.elems_pos < s.elems.length →
    (s.elems.getD s.elems_pos defElem).ks_pos <
      (s.elems.getD s.elems_pos defElem).ks_cnt ∧ 1 ≤ s.dist)

/-- `pw_order_t` from `pp.c`. -/
structure pw_order_t where
  len : Nat
  cnt : Nat
deriving DecidableEq

/-- `sort_by_cnt` from `pp.c`: `return o1->cnt < o2->cnt;` — 1 when the
first count is smaller, 0 otherwise (never negative). -/
def sort_by_cnt (o1 o2 : pw_order_t) : Int :=
  if o1.cnt < o2.cnt then 1 else 0

/-- `sort_by_ks` from `pp.c`: `return mpz_cmp (f1->ks_cnt, f2->ks_cnt);`
(sign of the difference). -/
def sort_by_ks (f1 f2 : ElemSt) : Int :=
  if f1.ks_cnt < f2.ks_cnt then -1 else if f2.ks_cnt < f1.ks_cnt then 1 else 0

/-- The `pw_orders` array before `qsort`: one entry per length in
`[pw_min, pw_max]` carrying `db_entry->words_cnt`. -/
def pw_orders (db : Db) (pw_min pw_max : Nat) : List pw_order_t :=
  (pwLengths pw_min pw_max).map fun l => ⟨l, (db l).length⟩

/-- An output the C `qsort` contract admits: a permutation of the input
that is pairwise consistent with the comparator (no element compares
strictly greater than a later one). -/
def QsortResult {α : Type} (cmp : α → α → Int) (l l' : List α) : Prop :=
  l'.Perm l ∧ l'.Pairwise fun a b => cmp a b ≤ 0

/-- A two-word bucket table: `B_1 = ["a","b"]` (used with `--wl-dist-len`
and `pw_min = pw_max = 2`). -/
def db4 : Db := fun k => if k = 1 then [[97], [98]] else []

/-- The setup state for `db4`, lengths `2..2`, `--wl-dist-len`: one slot
for length 2 whose `wordlen_dist` cap is `|B_2| = 0`. -/
def slots4 : List DbSlot := [mkSlot db4 true 2 (genChains db4 1 8 2)]

/-- A one-word bucket table: `B_1 = ["a"]`. -/
def db1a : Db := fun k => if k = 1 then [[97]] else []

/-- The setup state for `db1a`, lengths `1..1`, default distribution. -/
def slots1a : List DbSlot := [mkSlot db1a false 1 (genChains db1a 1 8 1)]

/-- The setup state for `db3`, lengths `2..2`, default distribution. -/
def slots3 : List DbSlot := [mkSlot db3 false 2 (genChains db3 1 8 2)]

/-- A bucket table with `|B_1| = 2` and `|B_2| = 1000` (the spec's
length-priority scenario). -/
def db16 : Db :=
  fun k => if k = 1 then [[97], [98]]
           else if k = 2 then List.replicate 1000 [97, 98] else []

/-- A bucket table with `B_1 = ["a"]` and `B_2 = ["bc"]` (the spec's
mixed-length scenario with an exact keyspace tie). -/
def dbab : Db := fun k => if k = 1 then [[97]] else if k = 2 then [[98, 99]] else []

/-- The run after setup: validate `skip`/`limit` against the total
keyspace of the prepared slots, then (only on success) run the
enumeration loop from position 0; a validation failure propagates the
diagnostic and produces no candidate lines. -/
def ppMain (db : Db) (slots : List DbSlot) (skip limit fuel : Nat) :
    Except String (List (List Nat)) :=
  match validate skip limit (slotsRem slots) with
  | Except.error e => Except.error e
  | Except.ok eff => Except.ok (runLoop db skip eff fuel slots 0).2

/-- The batch bound `iter_max` of one slot body: the active chain's
remaining keyspace, capped by the slot's `wordlen_dist` entry and by the
remaining effective total. -/
def batchIter (total : Nat) (s : DbSlot) (tpos : Nat) : Nat :=
  let e := s.elems.getD s.elems_pos defElem
  let iter1 := e.ks_cnt - e.ks_pos
  let iter2 := if s.dist < iter1 then s.dist else iter1
  if total - tpos < iter2 then total - tpos else iter2

/-- Decidable equality for validation results. -/
instance exceptDecEq : DecidableEq (Except String Nat) := fun a b =>
  match a, b with
  | Except.error x, Except.error y =>
      if h : x = y then isTrue (by rw [h])
      else isFalse (fun hc => by cases hc; exact h rfl)
  | Except.ok x, Except.ok y =>
      if h : x = y then isTrue (by rw [h])
      else isFalse (fun hc => by cases hc; exact h rfl)
  | Except.error _, Except.ok _ => isFalse (fun hc => by cases hc)
  | Except.ok _, Except.error _ => isFalse (fun hc => by cases hc)

instance SlotWF.decide (s : DbSlot) : Decidable (SlotWF s) := by
  unfold SlotWF
  infer_instance

instance QsortResult.decide {α : Type} (cmp : α → α → Int) [DecidableEq α]
    [DecidableRel fun a b : α => cmp a b ≤ 0] (l l' : List α) :
    Decidable (QsortResult cmp l l') := by
  unfold QsortResult
  infer_instance

theorem elemGenGo_sum (s : Nat) : ∀ idx key, (elemGenGo s idx key).sum = s + key := by
  induction s with
  | zero => intro idx key; simp [elemGenGo]
  | succ s ih =>
      intro idx key
      by_cases h : idx % 2 = 1 <;> simp [elemGenGo, h, ih] <;> omega

theorem elemGenGo_pos (s : Nat) :
    ∀ idx key, 1 ≤ key → ∀ p ∈ elemGenGo s idx key, 1 ≤ p := by
  induction s with
  | zero => intro idx key hk p hp; simp [elemGenGo] at hp; omega
  | succ s ih =>
      intro idx key hk p hp
      by_cases h : idx % 2 = 1
      · simp [elemGenGo, h] at hp
        rcases hp with hp | hp
        · omega
        · exact ih (idx / 2) 1 (le_refl 1) p hp
      · simp [elemGenGo, h] at hp
        exact ih (idx / 2) (key + 1) (by omega) p hp

theorem elemGenGo_ne_nil (s idx key : Nat) : elemGenGo s idx key ≠ [] := by
  cases s with
  | zero => simp [elemGenGo]
  | succ s =>
      by_cases h : idx % 2 = 1 <;> simp [elemGenGo, h]
      · exact fun hc => absurd (congrArg List.sum hc) (by simp [elemGenGo_sum])

theorem radixDigit_zero (k : Nat) (rest : List Nat) (db : Db) (p : Nat) :
    radixDigit (k :: rest) db p 0 = p % (db k).length := by
  simp [radixDigit]

theorem radixDigit_succ (k : Nat) (rest : List Nat) (db : Db) (p j : Nat) :
    radixDigit (k :: rest) db p (j + 1) =
      radixDigit rest db (p / (db k).length) j := by
  simp [radixDigit, Nat.div_div_eq_div_mul]

theorem elem_set_pwbuf_eq_digits (db : Db) (c : List Nat) :
    ∀ p, elem_set_pwbuf c db p =
      ((List.range c.length).map fun i =>
        (db (c.getD i 0)).getD (radixDigit c db p i) []).flatten := by
  induction c with
  | nil => intro p; simp [elem_set_pwbuf]
  | cons k rest ih =>
      intro p
      rw [elem_set_pwbuf, ih (p / (db k).length)]
      simp only [List.length_cons, List.range_succ_eq_map, List.map_cons,
        List.map_map, List.flatten]
      congr 1
      · simp [radixDigit]
      · exact congrArg List.flatten (List.map_congr_left fun i _ => by
          simp [Function.comp, radixDigit_succ]).symm

theorem elem_set_pwbuf_length (db : Db) (hw : ∀ k, ∀ w ∈ db k, w.length = k)
    (c : List Nat) (hne : ∀ k ∈ c, 0 < (db k).length) :
    ∀ p, (elem_set_pwbuf c db p).length = c.sum := by
  induction c with
  | nil => intro p; simp [elem_set_pwbuf]
  | cons k rest ih =>
      intro p
      have hk : 0 < (db k).length := hne k (by simp)
      have hidx : p % (db k).length < (db k).length := Nat.mod_lt _ hk
      rw [elem_set_pwbuf]
      rw [List.length_append, List.getD_eq_getElem _ _ hidx,
        ih (fun k hk => hne k (by simp [hk])) (p / (db k).length)]
      rw [hw k _ (List.getElem_mem hidx)]
      simp

/-- Claim C1: for a chain `c` whose buckets are all non-empty (with every
bucket-`k` word of length `k`) and a local position `p < ks_cnt(c)`, the
materializer emits exactly the concatenation of `B_{p_i}[digit_i]` over the
parts, where the `digit_i` are the little-endian mixed-radix digits of `p`
over the bucket sizes, followed by one newline byte, and the line is
exactly `n + 1` bytes long for output length `n`. -/
theorem C1_materializer (db : Db) (c : List Nat) (p n : Nat)
    (hne : ∀ k ∈ c, 0 < (db k).length)
    (hw : ∀ k, ∀ w ∈ db k, w.length = k)
    (hsum : c.sum = n)
    (hp : p < elem_ks c db) :
    pwLine c db p =
      ((List.range c.length).map fun i =>
        (db (c.getD i 0)).getD (radixDigit c db p i) []).flatten ++ [10] ∧
    (pwLine c db p).length = n + 1 := by
  constructor
  · rw [pwLine, elem_set_pwbuf_eq_digits]
  · rw [pwLine, List.length_append, elem_set_pwbuf_length db hw c hne, hsum]
    simp

theorem db3_words_len : ∀ k, ∀ w ∈ db3 k, w.length = k := by
  intro k w hwk
  by_cases h : k = 1
  · subst h
    have hm : w ∈ [[97], [98], [99]] := by simpa [db3] using hwk
    fin_cases hm <;> rfl
  · simp [db3, h] at hwk

theorem C1_materializer_witness :
    ((∀ k ∈ [1, 1], 0 < (db3 k).length) ∧ ([1, 1].sum = 2) ∧ 5 < elem_ks [1, 1] db3) ∧
    (pwLine [1, 1] db3 5 =
      ((List.range ([1, 1] : List Nat).length).map fun i =>
        (db3 ([1, 1].getD i 0)).getD (radixDigit [1, 1] db3 5 i) []).flatten ++ [10] ∧
     (pwLine [1, 1] db3 5).length = 2 + 1) :=
  ⟨⟨by decide, by decide, by decide⟩,
   C1_materializer db3 [1, 1] 5 2 (by decide) db3_words_len (by decide) (by decide)⟩

/-- Claim C9: in the materializer, every modulus and division is by the
word count of a bucket referenced by a chain that passed
`elem_valid_with_db`, and such counts are positive; the computed word index
`p mod words_cnt` — in particular every mixed-radix digit — is strictly
below the bucket's word count, so the word lookup is in bounds. -/
theorem C9_materializer_safety (db : Db) (c : List Nat)
    (hv : elem_valid_with_db c db = true) :
    (∀ k ∈ c, 0 < (db k).length ∧ ∀ p : Nat, p % (db k).length < (db k).length) ∧
    (∀ p i, i < c.length → radixDigit c db p i < (db (c.getD i 0)).length) := by
  have hpos : ∀ k ∈ c, 0 < (db k).length := by
    intro k hk
    have := List.all_eq_true.mp hv k hk
    simpa using this
  refine ⟨fun k hk => ⟨hpos k hk, fun p => Nat.mod_lt _ (hpos k hk)⟩, ?_⟩
  intro p i hi
  have hmem : c.getD i 0 ∈ c := by
    rw [List.getD_eq_getElem _ _ hi]
    exact List.getElem_mem hi
  exact Nat.mod_lt _ (hpos _ hmem)

theorem C9_materializer_safety_witness :
    (elem_valid_with_db [1, 1] db3 = true) ∧
    ((∀ k ∈ [1, 1], 0 < (db3 k).length ∧
        ∀ p : Nat, p % (db3 k).length < (db3 k).length) ∧
     (∀ p i, i < ([1, 1] : List Nat).length →
        radixDigit [1, 1] db3 p i < (db3 ([1, 1].getD i 0)).length)) :=
  ⟨by decide, C9_materializer_safety db3 [1, 1] (by decide)⟩

theorem foldl_mul (f : Nat → Nat) :
    ∀ (c : List Nat) (a : Nat), c.foldl (fun x k => x * f k) a = a * (c.map f).prod := by
  intro c
  induction c with
  | nil => intro a; simp
  | cons k rest ih =>
      intro a
      simp only [List.foldl_cons, List.map_cons, List.prod_cons, ih]
      ring

theorem elem_ks_eq_prod (db : Db) (c : List Nat) :
    elem_ks c db = (c.map fun k => (db k).length).prod := by
  rw [elem_ks, foldl_mul]
  simp

/-- Claim C3: after setup, every stored chain's `ks_cnt` equals the product
of the word counts of its parts' buckets, and `total_ks_cnt` (before any
limit adjustment) is the sum of the chain keyspaces over all chains of all
lengths in `[pw_min, pw_max]`. -/
theorem C3_total_keyspace (db : Db) (mn mx pmin pmax : Nat) :
    (∀ n ∈ pwLengths pmin pmax, ∀ c ∈ genChains db mn mx n,
        elem_ks c db = (c.map fun k => (db k).length).prod) ∧
    total_ks_cnt db mn mx pmin pmax =
      ((pwLengths pmin pmax).map fun n =>
        ((genChains db mn mx n).map fun c =>
          (c.map fun k => (db k).length).prod).sum).sum := by
  refine ⟨fun n _ c _ => elem_ks_eq_prod db c, ?_⟩
  simp only [total_ks_cnt, elem_ks_eq_prod]

theorem C3_total_keyspace_witness :
    ((1 : Nat) ∈ pwLengths 1 1 ∧ [1] ∈ genChains db3 1 8 1) ∧
    elem_ks [1] db3 = ([1].map fun k => (db3 k).length).prod :=
  ⟨⟨by decide, by decide⟩,
   (C3_total_keyspace db3 1 8 1 1).1 1 (by decide) [1] (by decide)⟩

theorem elemGenGo_zero_idx : ∀ s key, elemGenGo s 0 key = [key + s] := by
  intro s
  induction s with
  | zero => intro key; simp [elemGenGo]
  | succ s ih =>
      intro key
      rw [elemGenGo]
      simp only [Nat.zero_mod, Nat.zero_div]
      rw [if_neg (by omega), ih]
      congr 1
      omega

theorem elemGenGo_headD (s : Nat) :
    ∀ idx key, key ≤ (elemGenGo s idx key).headD 0 := by
  induction s with
  | zero => intro idx key; simp [elemGenGo]
  | succ s ih =>
      intro idx key
      by_cases h : idx % 2 = 1
      · simp [elemGenGo, h]
      · rw [elemGenGo, if_neg h]
        exact le_trans (Nat.le_succ key) (ih (idx / 2) (key + 1))

theorem elemGenGo_inj (s : Nat) :
    ∀ idx idx' key, idx < 2 ^ s → idx' < 2 ^ s →
      elemGenGo s idx key = elemGenGo s idx' key → idx = idx' := by
  induction s with
  | zero => intro idx idx' key h h' _; simp [Nat.pow_zero] at h h'; omega
  | succ s ih =>
      intro idx idx' key h h' heq
      have hs : (2 : Nat) ^ (s + 1) = 2 ^ s * 2 := by ring
      have hd : idx / 2 < 2 ^ s := by rw [hs] at h; omega
      have hd' : idx' / 2 < 2 ^ s := by rw [hs] at h'; omega
      by_cases ho : idx % 2 = 1 <;> by_cases ho' : idx' % 2 = 1
      · rw [elemGenGo, elemGenGo, if_pos ho, if_pos ho'] at heq
        have := ih (idx / 2) (idx' / 2) 1 hd hd' (List.tail_eq_of_cons_eq heq)
        omega
      · rw [elemGenGo, elemGenGo, if_pos ho, if_neg ho'] at heq
        have h1 : (elemGenGo s (idx' / 2) (key + 1)).headD 0 = key := by
          rw [← heq]; rfl
        have h2 := elemGenGo_headD s (idx' / 2) (key + 1)
        omega
      · rw [elemGenGo, elemGenGo, if_neg ho, if_pos ho'] at heq
        have h1 : (elemGenGo s (idx / 2) (key + 1)).headD 0 = key := by
          rw [heq]; rfl
        have h2 := elemGenGo_headD s (idx / 2) (key + 1)
        omega
      · rw [elemGenGo, elemGenGo, if_neg ho, if_neg ho'] at heq
        have := ih (idx / 2) (idx' / 2) (key + 1) hd hd' heq
        omega

theorem elemGenGo_block (t e : Nat) :
    ∀ a key, elemGenGo (a + 1 + t) (2 ^ a + 2 ^ (a + 1) * e) key =
      (key + a) :: elemGenGo t e 1 := by
  intro a
  induction a with
  | zero =>
      intro key
      have ht : 0 + 1 + t = t + 1 := by omega
      rw [ht, elemGenGo]
      have h1 : (2 ^ 0 + 2 ^ (0 + 1) * e) % 2 = 1 := by omega
      have h2 : (2 ^ 0 + 2 ^ (0 + 1) * e) / 2 = e := by omega
      rw [if_pos h1, h2]
      simp
  | succ a ih =>
      intro key
      have hidx : 2 ^ (a + 1) + 2 ^ (a + 2) * e =
          2 * (2 ^ a + 2 ^ (a + 1) * e) := by ring
      have hs : a + 1 + 1 + t = (a + 1 + t) + 1 := by omega
      rw [hs, elemGenGo, hidx]
      have h1 : ¬ (2 * (2 ^ a + 2 ^ (a + 1) * e)) % 2 = 1 := by omega
      have h2 : 2 * (2 ^ a + 2 ^ (a + 1) * e) / 2 = 2 ^ a + 2 ^ (a + 1) * e := by
        omega
      rw [if_neg h1, h2, ih (key + 1)]
      congr 1
      omega

theorem encChain_decode : ∀ c : List Nat, c ≠ [] → (∀ p ∈ c, 1 ≤ p) →
    elemGenGo (c.sum - 1) (encChain c) 1 = c := by
  intro c
  induction c with
  | nil => intro h; exact absurd rfl h
  | cons p rest ih =>
      intro _ hpos
      have hp : 1 ≤ p := hpos p (by simp)
      cases rest with
      | nil =>
          simp only [encChain, List.sum_cons, List.sum_nil, Nat.add_zero]
          rw [elemGenGo_zero_idx]
          congr 1
          omega
      | cons q rest' =>
          have hrest_pos : ∀ x ∈ q :: rest', 1 ≤ x := fun x hx =>
            hpos x (by simp [hx])
          have hq : 1 ≤ q := hrest_pos q (by simp)
          have hsum : 1 ≤ (q :: rest').sum := by
            have := List.single_le_sum (fun x (hx : x ∈ q :: rest') =>
              Nat.zero_le x) q (by simp)
            omega
          have henc : encChain (p :: q :: rest') =
              2 ^ (p - 1) + 2 ^ p * encChain (q :: rest') := rfl
          have hlen : (p :: q :: rest').sum - 1 =
              (p - 1) + 1 + ((q :: rest').sum - 1) := by
            simp only [List.sum_cons] at *
            omega
          have hpow : 2 ^ p = 2 ^ ((p - 1) + 1) := by
            congr 1
            omega
          rw [hlen, henc, hpow, elemGenGo_block, ih (by simp) hrest_pos]
          congr 1
          omega

theorem encChain_lt : ∀ c : List Nat, c ≠ [] → (∀ p ∈ c, 1 ≤ p) →
    encChain c < 2 ^ (c.sum - 1) := by
  intro c
  induction c with
  | nil => intro h; exact absurd rfl h
  | cons p rest ih =>
      intro _ hpos
      have hp : 1 ≤ p := hpos p (by simp)
      cases rest with
      | nil =>
          simp only [encChain, List.sum_cons, List.sum_nil, Nat.add_zero]
          exact Nat.pos_pow_of_pos _ (by omega)
      | cons q rest' =>
          have hrest_pos : ∀ x ∈ q :: rest', 1 ≤ x := fun x hx =>
            hpos x (by simp [hx])
          have hsum : 1 ≤ (q :: rest').sum := by
            have hq : 1 ≤ q := hrest_pos q (by simp)
            have := List.single_le_sum (fun x (hx : x ∈ q :: rest') =>
              Nat.zero_le x) q (by simp)
            omega
          have hrec := ih (by simp) hrest_pos
          have henc : encChain (p :: q :: rest') =
              2 ^ (p - 1) + 2 ^ p * encChain (q :: rest') := rfl
          have h1 : 2 ^ (p - 1) < 2 ^ p := by
            apply Nat.pow_lt_pow_right (by omega)
            omega
          have h2 : 2 ^ p * (encChain (q :: rest') + 1) ≤
              2 ^ p * 2 ^ ((q :: rest').sum - 1) := by
            apply Nat.mul_le_mul_left
            omega
          have h3 : 2 ^ p * 2 ^ ((q :: rest').sum - 1) =
              2 ^ ((p :: q :: rest').sum - 1) := by
            rw [← Nat.pow_add]
            congr 1
            simp only [List.sum_cons] at *
            omega
          rw [henc]
          calc 2 ^ (p - 1) + 2 ^ p * encChain (q :: rest')
              < 2 ^ p + 2 ^ p * encChain (q :: rest') := by omega
            _ = 2 ^ p * (encChain (q :: rest') + 1) := by ring
            _ ≤ 2 ^ ((p :: q :: rest').sum - 1) := by rw [← h3]; exact h2

theorem genChains_mem (db : Db) (mn mx n : Nat) (hn : 1 ≤ n) (c : List Nat) :
    c ∈ genChains db mn mx n ↔
      (c.sum = n ∧ c ≠ [] ∧ (∀ p ∈ c, 1 ≤ p) ∧
       (∀ p ∈ c, 0 < (db p).length) ∧ mn ≤ c.length ∧ c.length ≤ mx) := by
  rw [genChains, List.mem_filter]
  constructor
  · rintro ⟨hmem, hfil⟩
    rw [List.mem_map] at hmem
    obtain ⟨idx, hidx, rfl⟩ := hmem
    rw [List.mem_range] at hidx
    simp only [Bool.and_eq_true, elem_valid_with_db, elem_valid_with_cnt_min,
      elem_valid_with_cnt_max, List.all_eq_true, decide_eq_true_eq] at hfil
    refine ⟨?_, elemGenGo_ne_nil _ _ _, elemGenGo_pos _ _ _ (le_refl 1), ?_, ?_, ?_⟩
    · rw [elem_gen_with_idx, elemGenGo_sum]; omega
    · exact hfil.1.1
    · exact hfil.1.2
    · exact hfil.2
  · rintro ⟨hsum, hne, hpos, hdb, hmn, hmx⟩
    constructor
    · rw [List.mem_map]
      refine ⟨encChain c, List.mem_range.mpr ?_, ?_⟩
      · have := encChain_lt c hne hpos
        rwa [hsum] at this
      · have := encChain_decode c hne hpos
        rw [hsum] at this
        exact this
    · simp only [Bool.and_eq_true, elem_valid_with_db, elem_valid_with_cnt_min,
        elem_valid_with_cnt_max, List.all_eq_true, decide_eq_true_eq]
      exact ⟨⟨hdb, hmn⟩, hmx⟩

theorem genChains_nodup (db : Db) (mn mx n : Nat) : (genChains db mn mx n).Nodup := by
  apply List.Nodup.filter
  apply List.Nodup.map_on
  · intro x hx y hy hxy
    exact elemGenGo_inj (n - 1) x y 1 (List.mem_range.mp hx)
      (List.mem_range.mp hy) hxy
  · exact List.nodup_range _

/-- Claim C2: for every target length `n ≥ 1`, the stored chain list is
exactly the set of compositions of `n` into positive parts that reference
only non-empty buckets and whose part count lies in
`[elem_cnt_min, elem_cnt_max]`; each such composition appears exactly once
(the list has no duplicates), and the list is produced by walking the
split bitmasks `0 .. 2^(n-1) - 1` in order and filtering. -/
theorem C2_chain_generation (db : Db) (mn mx n : Nat) (hn : 1 ≤ n) :
    (genChains db mn mx n).Nodup ∧
    (∀ c, c ∈ genChains db mn mx n ↔
      (c.sum = n ∧ c ≠ [] ∧ (∀ p ∈ c, 1 ≤ p) ∧
       (∀ p ∈ c, 0 < (db p).length) ∧ mn ≤ c.length ∧ c.length ≤ mx)) ∧
    genChains db mn mx n =
      ((List.range (2 ^ (n - 1))).map (elem_gen_with_idx (n - 1))).filter
        (fun c => elem_valid_with_db c db && elem_valid_with_cnt_min c mn &&
                  elem_valid_with_cnt_max c mx) :=
  ⟨genChains_nodup db mn mx n, fun c => genChains_mem db mn mx n hn c, rfl⟩

theorem C2_chain_generation_witness :
    (1 ≤ 2) ∧
    ((genChains db3 1 8 2).Nodup ∧
     (∀ c, c ∈ genChains db3 1 8 2 ↔
       (c.sum = 2 ∧ c ≠ [] ∧ (∀ p ∈ c, 1 ≤ p) ∧
        (∀ p ∈ c, 0 < (db3 p).length) ∧ 1 ≤ c.length ∧ c.length ≤ 8)) ∧
     genChains db3 1 8 2 =
       ((List.range (2 ^ (2 - 1))).map (elem_gen_with_idx (2 - 1))).filter
         (fun c => elem_valid_with_db c db3 && elem_valid_with_cnt_min c 1 &&
                   elem_valid_with_cnt_max c 8)) :=
  ⟨by decide, C2_chain_generation db3 1 8 2 (by decide)⟩

theorem outSafe_inv (bufsiz : Nat) (hb : 117 ≤ bufsiz) :
    ∀ ops : List OutOp, (∀ op ∈ ops, opLen op ≤ IN_LEN_MAX + 1) →
      ∀ len, len < bufsiz - 100 → outSafe bufsiz len ops = true := by
  intro ops
  induction ops with
  | nil => intro _ len _; rfl
  | cons op rest ih =>
      intro hops len hlen
      cases op with
      | flush =>
          rw [outSafe]
          exact ih (fun op hop => hops op (by simp [hop])) 0 (by omega)
      | push pw =>
          have hpw : pw ≤ IN_LEN_MAX + 1 := hops (OutOp.push pw) (by simp)
          rw [IN_LEN_MAX] at hpw
          rw [outSafe, Bool.and_eq_true, decide_eq_true_eq]
          refine ⟨by omega, ?_⟩
          apply ih (fun op hop => hops op (by simp [hop]))
          rw [out_push_len]
          split <;> omega

/-- Claim C10: starting from an empty buffer, across any sequence of
`out_push` and `out_flush` operations in which every pushed line is at
most `IN_LEN_MAX + 1 = 17` bytes, every push's `memcpy` satisfies
`out->len + pw_len ≤ BUFSIZ`, because `out_push` flushes whenever the fill
level reaches `BUFSIZ - 100` (any `BUFSIZ ≥ 117`, so in particular the
usual 8192). -/
theorem C10_no_overflow (bufsiz : Nat) (hb : 117 ≤ bufsiz)
    (ops : List OutOp) (hops : ∀ op ∈ ops, opLen op ≤ IN_LEN_MAX + 1) :
    outSafe bufsiz 0 ops = true :=
  outSafe_inv bufsiz hb ops hops 0 (by omega)

theorem C10_no_overflow_witness :
    (117 ≤ 8192 ∧
     (∀ op ∈ [OutOp.push 17, OutOp.push 3, OutOp.flush, OutOp.push 17],
        opLen op ≤ IN_LEN_MAX + 1)) ∧
    outSafe 8192 0 [OutOp.push 17, OutOp.push 3, OutOp.flush, OutOp.push 17] = true :=
  ⟨⟨by decide, by decide⟩,
   C10_no_overflow 8192 (by decide) _ (by decide)⟩

/-- Claim C8: the `skip`/`limit` validation is inclusive at the boundary
and precedes enumeration: `skip = total` is accepted (without a limit),
`limit > 0` with `skip + limit = total` is accepted, while `skip > total`,
or `limit > 0` with `skip + limit > total`, is rejected with a diagnostic
naming the offending option, and the run then produces no candidates. -/
theorem C8_validation (db : Db) (slots : List DbSlot) (skip limit fuel : Nat) :
    (skip = slotsRem slots → limit = 0 →
      validate skip limit (slotsRem slots) = Except.ok (slotsRem slots)) ∧
    (0 < limit → skip + limit = slotsRem slots →
      validate skip limit (slotsRem slots) = Except.ok (slotsRem slots)) ∧
    (slotsRem slots < skip →
      validate skip limit (slotsRem slots) =
        Except.error "Value of --skip must be smaller than total keyspace" ∧
      ppMain db slots skip limit fuel =
        Except.error "Value of --skip must be smaller than total keyspace") ∧
    (0 < limit → slotsRem slots < skip + limit →
      ∃ msg, validate skip limit (slotsRem slots) = Except.error msg ∧
        ppMain db slots skip limit fuel = Except.error msg ∧
        (msg = "Value of --skip must be smaller than total keyspace" ∨
         msg = "Value of --limit must be smaller than total keyspace" ∨
         msg = "Value of --skip + --limit must be smaller than total keyspace")) := by
  refine ⟨?_, ?_, ?_, ?_⟩
  · rintro rfl rfl
    rw [validate]
    rw [if_neg (by omega), if_neg (by omega), if_neg (by omega), if_pos rfl]
  · intro hl hsl
    rw [validate]
    rw [if_neg (by omega), if_neg (by omega), if_neg (by omega),
      if_neg (by omega)]
    rw [hsl]
  · intro hs
    have hv : validate skip limit (slotsRem slots) =
        Except.error "Value of --skip must be smaller than total keyspace" := by
      rw [validate, if_pos (by omega)]
    exact ⟨hv, by rw [ppMain, hv]⟩
  · intro hl hsl
    by_cases hsk : slotsRem slots < skip
    · have hv : validate skip limit (slotsRem slots) =
          Except.error "Value of --skip must be smaller than total keyspace" := by
        rw [validate, if_pos (by omega)]
      exact ⟨_, hv, by rw [ppMain, hv], Or.inl rfl⟩
    · by_cases hlt : slotsRem slots < limit
      · have hv : validate skip limit (slotsRem slots) =
            Except.error "Value of --limit must be smaller than total keyspace" := by
          rw [validate, if_neg (by omega), if_pos (by omega)]
        exact ⟨_, hv, by rw [ppMain, hv], Or.inr (Or.inl rfl)⟩
      · have hv : validate skip limit (slotsRem slots) =
            Except.error
              "Value of --skip + --limit must be smaller than total keyspace" := by
          rw [validate, if_neg (by omega), if_neg (by omega), if_pos (by omega)]
        exact ⟨_, hv, by rw [ppMain, hv], Or.inr (Or.inr rfl)⟩

theorem C8_validation_witness :
    (slotsRem slots3 = 9 ∧ (0 : Nat) < 6 ∧ 3 + 6 = 9 ∧
     slotsRem slots3 < 10 ∧ (0 : Nat) < 6 ∧ slotsRem slots3 < 4 + 6) ∧
    (validate 9 0 (slotsRem slots3) = Except.ok (slotsRem slots3)) ∧
    (validate 3 6 (slotsRem slots3) = Except.ok (slotsRem slots3)) ∧
    (validate 10 0 (slotsRem slots3) =
       Except.error "Value of --skip must be smaller than total keyspace" ∧
     ppMain db3 slots3 10 0 9 =
       Except.error "Value of --skip must be smaller than total keyspace") ∧
    (∃ msg, validate 4 6 (slotsRem slots3) = Except.error msg ∧
       ppMain db3 slots3 4 6 9 = Except.error msg ∧
       (msg = "Value of --skip must be smaller than total keyspace" ∨
        msg = "Value of --limit must be smaller than total keyspace" ∨
        msg = "Value of --skip + --limit must be smaller than total keyspace")) :=
  ⟨⟨by decide, by decide, by decide, by decide, by decide, by decide⟩,
   (C8_validation db3 slots3 9 0 9).1 (by decide) rfl,
   (C8_validation db3 slots3 3 6 9).2.1 (by decide) (by decide),
   (C8_validation db3 slots3 10 0 9).2.2.1 (by decide),
   (C8_validation db3 slots3 4 6 9).2.2.2 (by decide) (by decide)⟩

theorem slotBatch_tpos (db : Db) (skip total : Nat) (s : DbSlot) (tpos : Nat) :
    (slotBatch db skip total s tpos).2.1 = tpos + batchIter total s tpos := rfl

theorem slotBatch_out (db : Db) (skip total : Nat) (s : DbSlot) (tpos : Nat) :
    (slotBatch db skip total s tpos).2.2 =
      (List.range (batchIter total s tpos)).filterMap fun i =>
        if skip ≤ tpos + i then
          some (pwLine (s.elems.getD s.elems_pos defElem).parts db
            ((s.elems.getD s.elems_pos defElem).ks_pos + i))
        else none := rfl

theorem slotBatch_fst (db : Db) (skip total : Nat) (s : DbSlot) (tpos : Nat) :
    (slotBatch db skip total s tpos).1 =
      (let e := s.elems.getD s.elems_pos defElem
       let iter := batchIter total s tpos
       let e' : ElemSt := if e.ks_pos + iter = e.ks_cnt then ⟨e.parts, e.ks_cnt, 0⟩
                          else ⟨e.parts, e.ks_cnt, e.ks_pos + iter⟩
       let pos' := if e.ks_pos + iter = e.ks_cnt then s.elems_pos + 1 else s.elems_pos
       (⟨s.len, s.dist, s.elems.set s.elems_pos e', pos'⟩ : DbSlot)) := rfl

theorem slotBatch_skip_state (db : Db) (skip total : Nat) (s : DbSlot) (tpos : Nat) :
    (slotBatch db skip total s tpos).1 = (slotBatch db 0 total s tpos).1 ∧
    (slotBatch db skip total s tpos).2.1 = (slotBatch db 0 total s tpos).2.1 :=
  ⟨rfl, rfl⟩

theorem filterMap_if_zero {α : Type} (f : Nat → α) (a n : Nat) :
    ((List.range n).filterMap fun i =>
      if (0 : Nat) ≤ a + i then some (f i) else none) = (List.range n).map f := by
  have h : (fun i => if (0 : Nat) ≤ a + i then some (f i) else none) = some ∘ f :=
    funext fun i => by simp
  rw [h, List.filterMap_eq_map]

theorem filterMap_if_drop {α : Type} (s : Nat) :
    ∀ (n : Nat) (f : Nat → α) (a : Nat),
      ((List.range n).filterMap fun i =>
        if s ≤ a + i then some (f i) else none) =
      ((List.range n).map f).drop (s - a) := by
  intro n
  induction n with
  | zero => intro f a; simp
  | succ n ih =>
      intro f a
      rw [List.range_succ_eq_map]
      rw [List.filterMap_cons, List.map_cons]
      rw [List.filterMap_map, List.map_map]
      have hc : ((fun i => if s ≤ a + i then some (f i) else none) ∘ Nat.succ) =
          fun i => if s ≤ (a + 1) + i then some ((f ∘ Nat.succ) i) else none := by
        funext i
        have he : a + (i + 1) = (a + 1) + i := by omega
        simp only [Function.comp, Nat.succ_eq_add_one, he]
      rw [hc, ih (f ∘ Nat.succ) (a + 1)]
      by_cases h : s ≤ a
      · rw [if_pos (by omega : s ≤ a + 0)]
        have h0 : s - a = 0 := by omega
        have h1 : s - (a + 1) = 0 := by omega
        rw [h0, h1, List.drop_zero, List.drop_zero]
      · rw [if_neg (by omega : ¬ s ≤ a + 0)]
        have h1 : s - a = (s - (a + 1)) + 1 := by omega
        rw [h1, List.drop_succ_cons]

theorem drop_window_append {α : Type} (A B : List α) (a b s : Nat)
    (hab : a ≤ b) (hA : A.length = b - a) :
    A.drop (s - a) ++ B.drop (s - b) = (A ++ B).drop (s - a) := by
  rw [List.drop_append_eq_append_drop, hA]
  have h : s - a - (b - a) = s - b := by omega
  rw [h]

theorem take_window_append {α : Type} (A B : List α) (n : Nat)
    (hn : A.length ≤ n) :
    (A ++ B).take n = A ++ B.take (n - A.length) := by
  rw [List.take_append_eq_append_take, List.take_of_length_le hn]

theorem runRound_pos_le (db : Db) (skip total : Nat) :
    ∀ slots tpos, tpos ≤ (runRound db skip total slots tpos).2.1 := by
  intro slots
  induction slots with
  | nil => intro tpos; exact le_refl _
  | cons s rest ih =>
      intro tpos
      rw [runRound]
      by_cases hc : s.elems_pos = s.elems.length
      · rw [if_pos hc]; exact ih tpos
      · rw [if_neg hc]
        by_cases hb : (slotBatch db skip total s tpos).2.1 = total
        · rw [if_pos hb]
          simp only [slotBatch_tpos]
          omega
        · rw [if_neg hb]
          have h1 := ih (slotBatch db skip total s tpos).2.1
          simp only [slotBatch_tpos] at h1 ⊢
          omega

theorem runRound_out_len_zero (db : Db) (total : Nat) :
    ∀ slots tpos, (runRound db 0 total slots tpos).2.2.length =
      (runRound db 0 total slots tpos).2.1 - tpos := by
  intro slots
  induction slots with
  | nil => intro tpos; simp [runRound]
  | cons s rest ih =>
      intro tpos
      rw [runRound]
      by_cases hc : s.elems_pos = s.elems.length
      · rw [if_pos hc]; exact ih tpos
      · rw [if_neg hc]
        have hout : (slotBatch db 0 total s tpos).2.2.length =
            batchIter total s tpos := by
          rw [slotBatch_out, filterMap_if_zero, List.length_map, List.length_range]
        by_cases hb : (slotBatch db 0 total s tpos).2.1 = total
        · rw [if_pos hb]
          simp only [hout, slotBatch_tpos]
          omega
        · rw [if_neg hb]
          have h1 := ih (slotBatch db 0 total s tpos).2.1
          have h2 := runRound_pos_le db 0 total rest (slotBatch db 0 total s tpos).2.1
          simp only [List.length_append, hout, h1, slotBatch_tpos] at *
          omega

theorem runRound_skip (db : Db) (total skip : Nat) :
    ∀ slots tpos,
      (runRound db skip total slots tpos).1 = (runRound db 0 total slots tpos).1 ∧
      (runRound db skip total slots tpos).2.1 =
        (runRound db 0 total slots tpos).2.1 ∧
      (runRound db skip total slots tpos).2.2 =
        ((runRound db 0 total slots tpos).2.2).drop (skip - tpos) := by
  intro slots
  induction slots with
  | nil => intro tpos; exact ⟨rfl, rfl, by simp [runRound]⟩
  | cons s rest ih =>
      intro tpos
      rw [runRound, runRound]
      by_cases hc : s.elems_pos = s.elems.length
      · rw [if_pos hc, if_pos hc]
        dsimp only
        obtain ⟨h1, h2, h3⟩ := ih tpos
        exact ⟨by rw [h1], by rw [h2], h3⟩
      · rw [if_neg hc, if_neg hc]
        have hbst := slotBatch_skip_state db skip total s tpos
        have hbout : (slotBatch db skip total s tpos).2.2 =
            ((slotBatch db 0 total s tpos).2.2).drop (skip - tpos) := by
          rw [slotBatch_out, slotBatch_out, filterMap_if_zero, filterMap_if_drop]
        by_cases hb : (slotBatch db 0 total s tpos).2.1 = total
        · rw [if_pos (hbst.2.trans hb), if_pos hb]
          exact ⟨by rw [hbst.1], by rw [hbst.2], hbout⟩
        · rw [if_neg (fun h => hb (hbst.2.symm.trans h)), if_neg hb]
          dsimp only
          rw [hbst.2]
          obtain ⟨h1, h2, h3⟩ := ih (slotBatch db 0 total s tpos).2.1
          refine ⟨by rw [hbst.1, h1], by rw [h2], ?_⟩
          rw [hbout, h3]
          apply drop_window_append
          · simp only [slotBatch_tpos]; omega
          · rw [slotBatch_out, filterMap_if_zero, List.length_map,
              List.length_range, slotBatch_tpos]
            omega

theorem runLoop_skip (db : Db) (total skip : Nat) :
    ∀ fuel slots tpos,
      (runLoop db skip total fuel slots tpos).1 =
        (runLoop db 0 total fuel slots tpos).1 ∧
      (runLoop db skip total fuel slots tpos).2 =
        ((runLoop db 0 total fuel slots tpos).2).drop (skip - tpos) := by
  intro fuel
  induction fuel with
  | zero => intro slots tpos; exact ⟨rfl, by simp [runLoop]⟩
  | succ fuel ih =>
      intro slots tpos
      rw [runLoop, runLoop]
      by_cases ht : tpos < total
      · rw [if_pos ht, if_pos ht]
        dsimp only
        obtain ⟨hr1, hr2, hr3⟩ := runRound_skip db total skip slots tpos
        obtain ⟨hl1, hl2⟩ := ih (runRound db 0 total slots tpos).1
          (runRound db 0 total slots tpos).2.1
        rw [hr1, hr2, hr3]
        refine ⟨by rw [hl1], ?_⟩
        rw [hl2]
        apply drop_window_append
        · exact runRound_pos_le db 0 total slots tpos
        · exact runRound_out_len_zero db total slots tpos
      · rw [if_neg ht, if_neg ht]
        exact ⟨rfl, by simp⟩

theorem batchIter_cases (s : DbSlot) (tpos T T' : Nat) (hT : tpos < T)
    (hTT' : T ≤ T') :
    (tpos + batchIter T s tpos < T ∧ batchIter T' s tpos = batchIter T s tpos) ∨
    (tpos + batchIter T s tpos = T ∧ batchIter T s tpos ≤ batchIter T' s tpos) := by
  simp only [batchIter]
  split_ifs <;> omega

theorem slotBatch_fst_congr (db : Db) (sk sk' T T' : Nat) (s : DbSlot) (tpos : Nat)
    (h : batchIter T s tpos = batchIter T' s tpos) :
    (slotBatch db sk T s tpos).1 = (slotBatch db sk' T' s tpos).1 := by
  rw [slotBatch_fst, slotBatch_fst]
  dsimp only
  rw [h]

theorem slotBatch_out_zero (db : Db) (T : Nat) (s : DbSlot) (tpos : Nat) :
    (slotBatch db 0 T s tpos).2.2 =
      (List.range (batchIter T s tpos)).map fun i =>
        pwLine (s.elems.getD s.elems_pos defElem).parts db
          ((s.elems.getD s.elems_pos defElem).ks_pos + i) := by
  rw [slotBatch_out, filterMap_if_zero]

theorem map_range_take {α : Type} (f : Nat → α) (a b : Nat) (h : a ≤ b) :
    ((List.range b).map f).take a = (List.range a).map f := by
  rw [← List.map_take, List.take_range, Nat.min_eq_left h]

theorem runRound_mono (db : Db) (T T' : Nat) (hTT' : T ≤ T') :
    ∀ slots tpos, tpos < T →
      (runRound db 0 T slots tpos).2.1 ≤ T ∧
      (((runRound db 0 T slots tpos).2.1 < T ∧
        (runRound db 0 T' slots tpos).1 = (runRound db 0 T slots tpos).1 ∧
        (runRound db 0 T' slots tpos).2.1 = (runRound db 0 T slots tpos).2.1 ∧
        (runRound db 0 T' slots tpos).2.2 = (runRound db 0 T slots tpos).2.2) ∨
       ((runRound db 0 T slots tpos).2.1 = T ∧
        (runRound db 0 T slots tpos).2.2 =
          ((runRound db 0 T' slots tpos).2.2).take (T - tpos) ∧
        T - tpos ≤ (runRound db 0 T' slots tpos).2.2.length)) := by
  intro slots
  induction slots with
  | nil =>
      intro tpos hT
      rw [runRound, runRound]
      exact ⟨le_of_lt hT, Or.inl ⟨hT, rfl, rfl, rfl⟩⟩
  | cons s rest ih =>
      intro tpos hT
      rw [runRound, runRound]
      by_cases hc : s.elems_pos = s.elems.length
      · rw [if_pos hc, if_pos hc]
        dsimp only
        obtain ⟨hbd, hcase⟩ := ih tpos hT
        refine ⟨hbd, ?_⟩
        rcases hcase with ⟨h1, h2, h3, h4⟩ | ⟨h1, h2, h3⟩
        · exact Or.inl ⟨h1, by rw [h2], h3, h4⟩
        · exact Or.inr ⟨h1, h2, h3⟩
      · rw [if_neg hc, if_neg hc]
        dsimp only
        rcases batchIter_cases s tpos T T' hT hTT' with
          ⟨hlt, hiter⟩ | ⟨heqT, hle⟩
        · -- the batch does not exhaust the smaller total: both runs advance
          -- identically and recurse
          have hb : ¬ (slotBatch db 0 T s tpos).2.1 = T := by
            rw [slotBatch_tpos]; omega
          have hb' : ¬ (slotBatch db 0 T' s tpos).2.1 = T' := by
            rw [slotBatch_tpos]; omega
          rw [if_neg hb, if_neg hb']
          dsimp only
          have hpos' : (slotBatch db 0 T' s tpos).2.1 =
              (slotBatch db 0 T s tpos).2.1 := by
            rw [slotBatch_tpos, slotBatch_tpos, hiter]
          have hfst : (slotBatch db 0 T' s tpos).1 =
              (slotBatch db 0 T s tpos).1 :=
            slotBatch_fst_congr db 0 0 T' T s tpos hiter
          have hout : (slotBatch db 0 T' s tpos).2.2 =
              (slotBatch db 0 T s tpos).2.2 := by
            rw [slotBatch_out_zero, slotBatch_out_zero, hiter]
          have ht1 : (slotBatch db 0 T s tpos).2.1 < T := by
            rw [slotBatch_tpos]; omega
          obtain ⟨hbd, hcase⟩ := ih (slotBatch db 0 T s tpos).2.1 ht1
          refine ⟨hbd, ?_⟩
          have hblen : (slotBatch db 0 T s tpos).2.2.length =
              batchIter T s tpos := by
            rw [slotBatch_out_zero, List.length_map, List.length_range]
          rcases hcase with ⟨h1, h2, h3, h4⟩ | ⟨h1, h2, h3⟩
          · refine Or.inl ⟨h1, ?_, ?_, ?_⟩
            · rw [hfst, hpos', h2]
            · rw [hpos', h3]
            · rw [hout, hpos', h4]
          · have ht1e : (slotBatch db 0 T s tpos).2.1 =
                tpos + batchIter T s tpos := slotBatch_tpos db 0 T s tpos
            refine Or.inr ⟨h1, ?_, ?_⟩
            · rw [hout, hpos', h2]
              rw [take_window_append _ _ _ (by rw [hblen]; omega :
                (slotBatch db 0 T s tpos).2.2.length ≤ T - tpos)]
              have harg : T - tpos - (slotBatch db 0 T s tpos).2.2.length =
                  T - (slotBatch db 0 T s tpos).2.1 := by
                rw [hblen, ht1e]
                omega
              rw [harg]
            · rw [hpos', List.length_append, hout, hblen]
              omega
        · -- the batch reaches the smaller total exactly: the T-run breaks
          have hb : (slotBatch db 0 T s tpos).2.1 = T := by
            rw [slotBatch_tpos]; omega
          rw [if_pos hb]
          have hitT : batchIter T s tpos = T - tpos := by omega
          have htake : (slotBatch db 0 T s tpos).2.2 =
              ((slotBatch db 0 T' s tpos).2.2).take (T - tpos) := by
            rw [slotBatch_out_zero, slotBatch_out_zero, ← hitT,
              map_range_take _ _ _ hle]
          have hlen' : (slotBatch db 0 T' s tpos).2.2.length =
              batchIter T' s tpos := by
            rw [slotBatch_out_zero, List.length_map, List.length_range]
          by_cases hb' : (slotBatch db 0 T' s tpos).2.1 = T'
          · rw [if_pos hb']
            refine ⟨le_of_eq hb, Or.inr ⟨hb, htake, ?_⟩⟩
            rw [hlen']
            omega
          · rw [if_neg hb']
            dsimp only
            refine ⟨le_of_eq hb, Or.inr ⟨hb, ?_, ?_⟩⟩
            · rw [htake, List.take_append_of_le_length
                (by rw [hlen']; omega : T - tpos ≤ (slotBatch db 0 T' s tpos).2.2.length)]
            · rw [List.length_append, hlen']
              omega

theorem runLoop_stop (db : Db) (skip total fuel : Nat) (slots : List DbSlot)
    (tpos : Nat) (h : ¬ tpos < total) :
    runLoop db skip total fuel slots tpos = ((slots, tpos), []) := by
  cases fuel with
  | zero => rfl
  | succ fuel => rw [runLoop, if_neg h]

theorem runLoop_mono (db : Db) (T T' : Nat) (hTT' : T ≤ T') :
    ∀ fuel slots tpos, tpos ≤ T →
      (runLoop db 0 T fuel slots tpos).2 =
        ((runLoop db 0 T' fuel slots tpos).2).take (T - tpos) := by
  intro fuel
  induction fuel with
  | zero => intro slots tpos _; simp [runLoop]
  | succ fuel ih =>
      intro slots tpos htle
      by_cases ht : tpos < T
      · rw [runLoop, runLoop, if_pos ht, if_pos (by omega : tpos < T')]
        dsimp only
        obtain ⟨hbd, hcase⟩ := runRound_mono db T T' hTT' slots tpos ht
        have hol : (runRound db 0 T slots tpos).2.2.length =
            (runRound db 0 T slots tpos).2.1 - tpos :=
          runRound_out_len_zero db T slots tpos
        have hpl := runRound_pos_le db 0 T slots tpos
        rcases hcase with ⟨h1, h2, h3, h4⟩ | ⟨h1, h2, h3⟩
        · rw [h2, h3, h4]
          rw [ih (runRound db 0 T slots tpos).1 (runRound db 0 T slots tpos).2.1 hbd]
          rw [take_window_append _ _ _
            (by omega : (runRound db 0 T slots tpos).2.2.length ≤ T - tpos)]
          have harg : T - tpos - (runRound db 0 T slots tpos).2.2.length =
              T - (runRound db 0 T slots tpos).2.1 := by omega
          rw [harg]
        · rw [h1, runLoop_stop db 0 T fuel _ _ (lt_irrefl T), List.append_nil]
          rw [List.take_append_of_le_length h3]
          exact h2
      · rw [runLoop_stop db 0 T (fuel + 1) slots tpos ht]
        have h0 : T - tpos = 0 := by omega
        rw [h0, List.take_zero]

/-- Claim C5 (amended): for any split point `0 < K < N` of a run of `N`
candidates (both windows then have a positive `--limit`, so the first run
is `skip = 0, limit = K` with effective total `K`, and the second is
`skip = K, limit = N − K` with effective total `N`), the two emitted
line sequences — and hence the two byte streams — concatenate to exactly
the single run's output: the enumeration is a pure deterministic function
of the inputs.  (For `K = 0` or `K = N`, a window's `limit` is 0, which
the program interprets as "no limit", and the property fails.) -/
theorem C5_shard_composability (db : Db) (slots : List DbSlot)
    (K N fuel : Nat) (hK : 0 < K) (hKN : K < N) (hN : N ≤ slotsRem slots) :
    validate 0 K (slotsRem slots) = Except.ok K ∧
    validate K (N - K) (slotsRem slots) = Except.ok N ∧
    validate 0 N (slotsRem slots) = Except.ok N ∧
    (runLoop db 0 K fuel slots 0).2 ++ (runLoop db K N fuel slots 0).2 =
      (runLoop db 0 N fuel slots 0).2 ∧
    ((runLoop db 0 K fuel slots 0).2).flatten ++
        ((runLoop db K N fuel slots 0).2).flatten =
      ((runLoop db 0 N fuel slots 0).2).flatten := by
  have hv1 : validate 0 K (slotsRem slots) = Except.ok K := by
    rw [validate, if_neg (by omega), if_neg (by omega), if_neg (by omega),
      if_neg (by omega)]
    congr 1
    omega
  have hv2 : validate K (N - K) (slotsRem slots) = Except.ok N := by
    rw [validate, if_neg (by omega), if_neg (by omega), if_neg (by omega),
      if_neg (by omega)]
    congr 1
    omega
  have hv3 : validate 0 N (slotsRem slots) = Except.ok N := by
    rw [validate, if_neg (by omega), if_neg (by omega), if_neg (by omega),
      if_neg (by omega)]
    congr 1
    omega
  have htk : (runLoop db 0 K fuel slots 0).2 =
      ((runLoop db 0 N fuel slots 0).2).take K := by
    have := runLoop_mono db K N (le_of_lt hKN) fuel slots 0 (Nat.zero_le K)
    simpa using this
  have hdp : (runLoop db K N fuel slots 0).2 =
      ((runLoop db 0 N fuel slots 0).2).drop K := by
    have := (runLoop_skip db N K fuel slots 0).2
    simpa using this
  have hcat : (runLoop db 0 K fuel slots 0).2 ++ (runLoop db K N fuel slots 0).2 =
      (runLoop db 0 N fuel slots 0).2 := by
    rw [htk, hdp, List.take_append_drop]
  refine ⟨hv1, hv2, hv3, hcat, ?_⟩
  rw [← List.flatten_append, hcat]

theorem C5_shard_composability_witness :
    ((0 : Nat) < 3 ∧ (3 : Nat) < 9 ∧ (9 : Nat) ≤ slotsRem slots3) ∧
    (validate 0 3 (slotsRem slots3) = Except.ok 3 ∧
     validate 3 (9 - 3) (slotsRem slots3) = Except.ok 9 ∧
     validate 0 9 (slotsRem slots3) = Except.ok 9 ∧
     (runLoop db3 0 3 9 slots3 0).2 ++ (runLoop db3 3 9 9 slots3 0).2 =
       (runLoop db3 0 9 9 slots3 0).2 ∧
     ((runLoop db3 0 3 9 slots3 0).2).flatten ++
         ((runLoop db3 3 9 9 slots3 0).2).flatten =
       ((runLoop db3 0 9 9 slots3 0).2).flatten) :=
  ⟨⟨by decide, by decide, by decide⟩,
   C5_shard_composability db3 slots3 3 9 9 (by decide) (by decide) (by decide)⟩

/-- Claim C5 counterexample: the claim quantifies over any split
`[0, K) / [K, N)`, but at `K = 0` the first run's `limit` is 0, which the
program treats as "no limit" (the `--limit` branch is skipped entirely),
so with the one-word wordlist {"a"} and `pw_min = pw_max = 1` (`N` = total
= 1) the first run emits the whole keyspace `"a\n"` instead of the empty
window, and the concatenation of the two runs' byte streams duplicates
the single run's output instead of equalling it. -/
theorem C5_shard_counterexample :
    validate 0 0 (slotsRem slots1a) = Except.ok 1 ∧
    validate 0 1 (slotsRem slots1a) = Except.ok 1 ∧
    (runLoop db1a 0 1 1 slots1a 0).2 = [[97, 10]] ∧
    (runLoop db1a 0 1 1 slots1a 0).2 ++ (runLoop db1a 0 1 1 slots1a 0).2 ≠
      (runLoop db1a 0 1 1 slots1a 0).2 := by
  decide

theorem slotBatch_iter_pos (total : Nat) (s : DbSlot) (tpos : Nat)
    (hstrict : (s.elems.getD s.elems_pos defElem).ks_pos <
      (s.elems.getD s.elems_pos defElem).ks_cnt)
    (hdist : 1 ≤ s.dist) (ht : tpos < total) :
    1 ≤ batchIter total s tpos := by
  simp only [batchIter]
  split_ifs <;> omega

theorem batchIter_le_rem (total : Nat) (s : DbSlot) (tpos : Nat) :
    batchIter total s tpos ≤
      (s.elems.getD s.elems_pos defElem).ks_cnt -
        (s.elems.getD s.elems_pos defElem).ks_pos := by
  simp only [batchIter]
  split_ifs <;> omega

theorem batchIter_le_total (total : Nat) (s : DbSlot) (tpos : Nat) :
    tpos + batchIter total s tpos ≤ tpos + (total - tpos) := by
  simp only [batchIter]
  split_ifs <;> omega

theorem slotBatch_out_len (db : Db) (skip total : Nat) (s : DbSlot) (tpos : Nat) :
    (slotBatch db skip total s tpos).2.2.length =
      (tpos + batchIter total s tpos) - max tpos skip := by
  rw [slotBatch_out, filterMap_if_drop, List.length_drop, List.length_map,
    List.length_range]
  omega

theorem getD_set_cases (l : List ElemSt) (j : Nat) (x : ElemSt) (i : Nat)
    (hi : i < l.length) :
    (l.set j x).getD i defElem =
      if j = i then x else l.getD i defElem := by
  rw [List.getD_eq_getElem _ _ (by rw [List.length_set]; exact hi),
    List.getElem_set]
  by_cases h : j = i
  · rw [if_pos h, if_pos h]
  · rw [if_neg h, if_neg h, List.getD_eq_getElem _ _ hi]

theorem slotRem_decomp (l : List ElemSt) (i : Nat) (h : i < l.length) :
    ((l.drop i).map elemRem).sum =
      elemRem (l.getD i defElem) + ((l.drop (i + 1)).map elemRem).sum := by
  rw [List.drop_eq_getElem_cons h, List.getD_eq_getElem _ _ h,
    List.map_cons, List.sum_cons]

theorem drop_succ_set (l : List ElemSt) (i : Nat) (x : ElemSt) :
    (l.set i x).drop (i + 1) = l.drop (i + 1) := by
  rw [List.drop_set, if_pos (by omega)]

theorem slotBatch_rem (db : Db) (skip total : Nat) (s : DbSlot) (tpos : Nat)
    (hlt : s.elems_pos < s.elems.length) :
    slotRem (slotBatch db skip total s tpos).1 + batchIter total s tpos =
      slotRem s := by
  have hrem := batchIter_le_rem total s tpos
  have heget : s.elems.getD s.elems_pos defElem = s.elems[s.elems_pos] :=
    List.getD_eq_getElem _ _ hlt
  rw [slotBatch_fst]
  dsimp only
  by_cases hdone : (s.elems.getD s.elems_pos defElem).ks_pos +
      batchIter total s tpos = (s.elems.getD s.elems_pos defElem).ks_cnt
  · rw [if_pos hdone, if_pos hdone]
    simp only [slotRem]
    rw [drop_succ_set]
    rw [slotRem_decomp s.elems s.elems_pos hlt]
    simp only [elemRem]
    omega
  · rw [if_neg hdone, if_neg hdone]
    simp only [slotRem]
    rw [slotRem_decomp (s.elems.set s.elems_pos _) s.elems_pos
      (by rw [List.length_set]; exact hlt)]
    rw [getD_set_cases _ _ _ _ hlt, if_pos rfl, drop_succ_set]
    rw [slotRem_decomp s.elems s.elems_pos hlt]
    simp only [elemRem]
    omega

theorem slotBatch_wf (db : Db) (skip total : Nat) (s : DbSlot) (tpos : Nat)
    (hWF : SlotWF s) (hlt : s.elems_pos < s.elems.length) :
    SlotWF (slotBatch db skip total s tpos).1 := by
  obtain ⟨hle, hks, hzero, hcur⟩ := hWF
  obtain ⟨hstrict, hdist⟩ := hcur hlt
  have hrem := batchIter_le_rem total s tpos
  have heget : s.elems.getD s.elems_pos defElem = s.elems[s.elems_pos] :=
    List.getD_eq_getElem _ _ hlt
  have hmem : s.elems.getD s.elems_pos defElem ∈ s.elems := by
    rw [heget]; exact List.getElem_mem hlt
  rw [slotBatch_fst]
  dsimp only
  by_cases hdone : (s.elems.getD s.elems_pos defElem).ks_pos +
      batchIter total s tpos = (s.elems.getD s.elems_pos defElem).ks_cnt
  · rw [if_pos hdone, if_pos hdone]
    refine ⟨?_, ?_, ?_, ?_⟩
    · dsimp only
      rw [List.length_set]
      omega
    · intro x hx
      rcases List.mem_or_eq_of_mem_set hx with hx | rfl
      · exact hks x hx
      · exact hks (s.elems.getD s.elems_pos defElem) hmem
    · intro i hi hne
      dsimp only at hne ⊢
      rw [List.length_set] at hi
      rw [List.mem_range] at hi
      rw [getD_set_cases _ _ _ _ hi]
      by_cases hip : s.elems_pos = i
      · rw [if_pos hip]
      · rw [if_neg hip]
        exact hzero i (List.mem_range.mpr hi) (fun h => hip h.symm)
    · intro hlt'
      dsimp only at hlt' ⊢
      rw [List.length_set] at hlt'
      rw [getD_set_cases _ _ _ _ hlt', if_neg (by omega)]
      have hz := hzero (s.elems_pos + 1) (List.mem_range.mpr hlt') (by omega)
      have hkc : 1 ≤ (s.elems.getD (s.elems_pos + 1) defElem).ks_cnt := by
        apply hks
        rw [List.getD_eq_getElem _ _ hlt']
        exact List.getElem_mem hlt'
      exact ⟨by omega, hdist⟩
  · rw [if_neg hdone, if_neg hdone]
    refine ⟨?_, ?_, ?_, ?_⟩
    · dsimp only
      rw [List.length_set]
      omega
    · intro x hx
      rcases List.mem_or_eq_of_mem_set hx with hx | rfl
      · exact hks x hx
      · exact hks (s.elems.getD s.elems_pos defElem) hmem
    · intro i hi hne
      dsimp only at hne ⊢
      rw [List.length_set] at hi
      rw [List.mem_range] at hi
      rw [getD_set_cases _ _ _ _ hi, if_neg (fun h => hne (by rw [← h]))]
      exact hzero i (List.mem_range.mpr hi) hne
    · intro hlt'
      dsimp only at hlt' ⊢
      rw [List.length_set] at hlt'
      rw [getD_set_cases _ _ _ _ hlt', if_pos rfl]
      refine ⟨?_, hdist⟩
      dsimp only
      omega

theorem slotRem_of_done (s : DbSlot) (h : s.elems_pos = s.elems.length) :
    slotRem s = 0 := by
  rw [slotRem, h, List.drop_length]
  rfl

theorem runRound_spec (db : Db) (skip total : Nat) :
    ∀ slots tpos, (∀ s ∈ slots, SlotWF s) → tpos < total →
      (∀ s ∈ (runRound db skip total slots tpos).1, SlotWF s) ∧
      tpos ≤ (runRound db skip total slots tpos).2.1 ∧
      (runRound db skip total slots tpos).2.1 ≤ total ∧
      (runRound db skip total slots tpos).2.1 +
          slotsRem (runRound db skip total slots tpos).1 =
        tpos + slotsRem slots ∧
      (runRound db skip total slots tpos).2.2.length =
        (runRound db skip total slots tpos).2.1 - max tpos skip ∧
      (0 < slotsRem slots → tpos < (runRound db skip total slots tpos).2.1) := by
  intro slots
  induction slots with
  | nil =>
      intro tpos _ ht
      rw [runRound]
      dsimp only
      refine ⟨fun s hs => absurd hs (List.not_mem_nil s), le_refl _,
        le_of_lt ht, rfl, by rw [List.length_nil]; omega, ?_⟩
      intro h0
      simp [slotsRem] at h0
  | cons s rest ih =>
      intro tpos hWF ht
      have hWFs : SlotWF s := hWF s (by simp)
      have hWFrest : ∀ x ∈ rest, SlotWF x := fun x hx => hWF x (by simp [hx])
      rw [runRound]
      by_cases hc : s.elems_pos = s.elems.length
      · rw [if_pos hc]
        dsimp only
        obtain ⟨r1, r2, r3, r4, r5, r6⟩ := ih tpos hWFrest ht
        have hz : slotRem s = 0 := slotRem_of_done s hc
        refine ⟨?_, r2, r3, ?_, r5, ?_⟩
        · intro x hx
          rcases List.mem_cons.mp hx with rfl | hx
          · exact hWFs
          · exact r1 x hx
        · simp only [slotsRem, List.map_cons, List.sum_cons, hz] at r4 ⊢
          omega
        · intro h0
          simp only [slotsRem, List.map_cons, List.sum_cons, hz] at h0
          exact r6 (by simpa [slotsRem] using h0)
      · rw [if_neg hc]
        dsimp only
        have hlt : s.elems_pos < s.elems.length := by
          rcases hWFs with ⟨h1, _, _, _⟩
          omega
        obtain ⟨hstrict, hdist⟩ := hWFs.2.2.2 hlt
        have hit1 : 1 ≤ batchIter total s tpos :=
          slotBatch_iter_pos total s tpos hstrict hdist ht
        have hbtpos : (slotBatch db skip total s tpos).2.1 =
            tpos + batchIter total s tpos := slotBatch_tpos db skip total s tpos
        have hbtot := batchIter_le_total total s tpos
        have hbwf : SlotWF (slotBatch db skip total s tpos).1 :=
          slotBatch_wf db skip total s tpos hWFs hlt
        have hbrem := slotBatch_rem db skip total s tpos hlt
        have hboutlen := slotBatch_out_len db skip total s tpos
        by_cases hb : (slotBatch db skip total s tpos).2.1 = total
        · rw [if_pos hb]
          dsimp only
          refine ⟨?_, by omega, le_of_eq hb, ?_, by omega, by omega⟩
          · intro x hx
            rcases List.mem_cons.mp hx with rfl | hx
            · exact hbwf
            · exact hWFrest x hx
          · simp only [slotsRem, List.map_cons, List.sum_cons]
            omega
        · rw [if_neg hb]
          dsimp only
          have ht1 : (slotBatch db skip total s tpos).2.1 < total := by
            omega
          obtain ⟨r1, r2, r3, r4, r5, r6⟩ :=
            ih (slotBatch db skip total s tpos).2.1 hWFrest ht1
          refine ⟨?_, by omega, r3, ?_, ?_, by omega⟩
          · intro x hx
            rcases List.mem_cons.mp hx with rfl | hx
            · exact hbwf
            · exact r1 x hx
          · simp only [slotsRem, List.map_cons, List.sum_cons] at r4 ⊢
            omega
          · rw [List.length_append, hboutlen, r5]
            omega

theorem runLoop_spec (db : Db) (skip total : Nat) :
    ∀ fuel slots tpos, (∀ s ∈ slots, SlotWF s) →
      total ≤ tpos + slotsRem slots → tpos ≤ total → total ≤ tpos + fuel →
      (runLoop db skip total fuel slots tpos).1.2 = total ∧
      (runLoop db skip total fuel slots tpos).2.length = total - max tpos skip := by
  intro fuel
  induction fuel with
  | zero =>
      intro slots tpos _ _ hle hfuel
      rw [runLoop]
      dsimp only
      constructor
      · omega
      · rw [List.length_nil]
        omega
  | succ fuel ih =>
      intro slots tpos hWF hrem hle hfuel
      rw [runLoop]
      by_cases ht : tpos < total
      · rw [if_pos ht]
        dsimp only
        obtain ⟨r1, r2, r3, r4, r5, r6⟩ := runRound_spec db skip total slots tpos hWF ht
        have hprog : tpos < (runRound db skip total slots tpos).2.1 := by
          apply r6
          omega
        obtain ⟨l1, l2⟩ := ih (runRound db skip total slots tpos).1
          (runRound db skip total slots tpos).2.1 r1 (by omega) r3 (by omega)
        refine ⟨l1, ?_⟩
        rw [List.length_append, r5, l2]
        omega
      · rw [if_neg ht]
        dsimp only
        constructor
        · omega
        · rw [List.length_nil]
          omega

/-- A two-chunk wordlist makes `slots4` the real post-setup state: length 2
has the single chain `(1,1)` with keyspace 4, a zero `wordlen_dist` cap
under `--wl-dist-len`, and total keyspace 4. -/
theorem slots4_facts :
    total_ks_cnt db4 1 8 2 2 = 4 ∧ slotsRem slots4 = 4 ∧
    slots4 = [⟨2, 0, [⟨[1, 1], 4, 0⟩], 0⟩] := by
  decide

/-- Claim C4 counterexample: wordlist {"a","b"} (two length-1 words),
`--wl-dist-len`, `pw_min = pw_max = 2`, `skip = 0`, `limit = 0`.  The
effective total is the full keyspace 4, but length 2's `wordlen_dist` cap
is `|B_2| = 0`, so every batch has `iter_max = 0`: one round returns the
state unchanged with no output, hence the `while` loop never advances —
after 4 rounds (enough for any progressing run to finish) the global
position is still 0 and nothing was emitted, while the claim requires
exactly `total_ks_cnt − skip = 4` candidates. -/
theorem C4_count_counterexample :
    validate 0 0 (total_ks_cnt db4 1 8 2 2) = Except.ok 4 ∧
    runRound db4 0 4 slots4 0 = (slots4, 0, []) ∧
    (runLoop db4 0 4 4 slots4 0).1.2 = 0 ∧
    (runLoop db4 0 4 4 slots4 0).2.length = 0 ∧
    (0 : Nat) < 4 - 0 := by
  decide

/-- Claim C4 (amended): provided every slot's `wordlen_dist` batch cap is
positive while the slot is unfinished (part of `SlotWF`; always true with
the default distribution table, but violated under `--wl-dist-len` when an
in-range length has chains but no words of that length), the loop
terminates within `effective total` rounds at global position equal to the
effective total returned by validation, and the number of emitted
newline-terminated candidates is exactly `limit` when `limit > 0` and
`total_ks_cnt − skip` when `limit = 0`; the positions below `skip` are
visited without being emitted. -/
theorem C4_emission_count (db : Db) (slots : List DbSlot)
    (skip limit fuel eff : Nat)
    (hWF : ∀ s ∈ slots, SlotWF s)
    (hval : validate skip limit (slotsRem slots) = Except.ok eff)
    (hfuel : eff ≤ fuel) :
    (runLoop db skip eff fuel slots 0).1.2 = eff ∧
    (runLoop db skip eff fuel slots 0).2.length = eff - skip ∧
    (0 < limit → (runLoop db skip eff fuel slots 0).2.length = limit) ∧
    (limit = 0 →
      (runLoop db skip eff fuel slots 0).2.length = slotsRem slots - skip) := by
  have hv : (skip ≤ slotsRem slots ∨ skip = 0) ∧
      ((limit = 0 ∧ eff = slotsRem slots) ∨
       (limit ≠ 0 ∧ skip + limit ≤ slotsRem slots ∧ eff = skip + limit)) := by
    rw [validate] at hval
    by_cases h1 : skip ≠ 0 ∧ slotsRem slots < skip
    · rw [if_pos h1] at hval; cases hval
    · rw [if_neg h1] at hval
      by_cases h2 : limit ≠ 0 ∧ slotsRem slots < limit
      · rw [if_pos h2] at hval; cases hval
      · rw [if_neg h2] at hval
        by_cases h3 : limit ≠ 0 ∧ slotsRem slots < skip + limit
        · rw [if_pos h3] at hval; cases hval
        · rw [if_neg h3] at hval
          by_cases h4 : limit = 0
          · rw [if_pos h4] at hval
            cases hval
            exact ⟨by omega, Or.inl ⟨h4, rfl⟩⟩
          · rw [if_neg h4] at hval
            cases hval
            exact ⟨by omega, Or.inr ⟨h4, by omega, rfl⟩⟩
  have hskip : skip ≤ eff ∨ (limit = 0 ∧ skip ≤ slotsRem slots) := by
    rcases hv.2 with ⟨h4, rfl⟩ | ⟨h4, h5, rfl⟩
    · rcases hv.1 with h | h
      · exact Or.inl h
      · exact Or.inl (by omega)
    · exact Or.inl (by omega)
  have heff : eff ≤ slotsRem slots := by
    rcases hv.2 with ⟨_, rfl⟩ | ⟨_, h5, rfl⟩ <;> omega
  obtain ⟨l1, l2⟩ := runLoop_spec db skip eff fuel slots 0 hWF
    (by omega) (by omega) (by omega)
  have hsle : skip ≤ eff := by
    rcases hskip with h | ⟨h4, h5⟩
    · exact h
    · rcases hv.2 with ⟨_, rfl⟩ | ⟨hc, _, _⟩
      · exact h5
      · exact absurd h4 hc
  refine ⟨l1, ?_, ?_, ?_⟩
  · rw [l2]; omega
  · intro hl
    rcases hv.2 with ⟨h4, _⟩ | ⟨_, _, rfl⟩
    · omega
    · rw [l2]; omega
  · intro hl
    rcases hv.2 with ⟨_, rfl⟩ | ⟨hc, _, _⟩
    · rw [l2]; omega
    · exact absurd hl hc

theorem C4_emission_count_witness :
    ((∀ s ∈ slots3, SlotWF s) ∧
     validate 3 3 (slotsRem slots3) = Except.ok 6 ∧ (6 : Nat) ≤ 6) ∧
    ((runLoop db3 3 6 6 slots3 0).1.2 = 6 ∧
     (runLoop db3 3 6 6 slots3 0).2.length = 6 - 3 ∧
     (0 < 3 → (runLoop db3 3 6 6 slots3 0).2.length = 3) ∧
     (3 = 0 →
       (runLoop db3 3 6 6 slots3 0).2.length = slotsRem slots3 - 3)) :=
  ⟨⟨by decide, by decide, by decide⟩,
   C4_emission_count db3 slots3 3 3 6 6 (by decide) (by decide) (by decide)⟩

set_option maxRecDepth 100000 in
/-- Claim C6 counterexample: with `|B_1| = 2`, `|B_2| = 1000`, `pw_min = 1`,
`pw_max = 2` and the default priority table, the claim says the order
visits length 1 (priority 15) before length 2 (priority 56).  But the
entries handed to `qsort` carry the wordlist counts `[2, 1000]` — not the
table values `[15, 56]` — and the comparator applied to (length-1 entry,
length-2 entry) returns 1, i.e. under the C comparator contract the
length-1 entry sorts AFTER the length-2 entry. -/
theorem C6_length_order_counterexample :
    (pw_orders db16 1 2).map pw_order_t.cnt = [2, 1000] ∧
    (pw_orders db16 1 2).map pw_order_t.cnt ≠
      [DEF_WORDLEN_DIST.getD 1 0, DEF_WORDLEN_DIST.getD 2 0] ∧
    sort_by_cnt ((pw_orders db16 1 2).getD 0 ⟨0, 0⟩)
        ((pw_orders db16 1 2).getD 1 ⟨0, 0⟩) = 1 ∧
    (0 : Int) < 1 := by
  decide

/-- Claim C6 (amended): the length order is whatever `qsort` returns for
the `(length, words_cnt)` array under `sort_by_cnt`.  The comparator key
is always the wordlist word count — the built-in distribution never
reaches the comparator — the comparator never returns a negative value,
and (reading the C contract: positive result means the first element
sorts after the second) every comparator-consistent qsort output lists
the lengths in non-increasing word-count order, not ascending
priority-table order. -/
theorem C6_length_order (db : Db) (pmin pmax : Nat) (l' : List pw_order_t)
    (h : QsortResult sort_by_cnt (pw_orders db pmin pmax) l') :
    (∀ o ∈ l', o.cnt = (db o.len).length) ∧
    l'.Pairwise (fun a b => b.cnt ≤ a.cnt) ∧
    (∀ o1 o2 : pw_order_t, 0 ≤ sort_by_cnt o1 o2) := by
  obtain ⟨hperm, hpw⟩ := h
  refine ⟨?_, ?_, ?_⟩
  · intro o ho
    have hmem : o ∈ pw_orders db pmin pmax := hperm.subset ho
    rw [pw_orders, List.mem_map] at hmem
    obtain ⟨len, _, rfl⟩ := hmem
    rfl
  · refine hpw.imp ?_
    intro a b hab
    rw [sort_by_cnt] at hab
    split_ifs at hab <;> omega
  · intro o1 o2
    rw [sort_by_cnt]
    split_ifs <;> omega

set_option maxRecDepth 100000 in
theorem C6_length_order_witness :
    QsortResult sort_by_cnt (pw_orders db16 1 2)
      [⟨2, 1000⟩, ⟨1, 2⟩] ∧
    ((∀ o ∈ ([⟨2, 1000⟩, ⟨1, 2⟩] : List pw_order_t),
        o.cnt = (db16 o.len).length) ∧
     ([⟨2, 1000⟩, ⟨1, 2⟩] : List pw_order_t).Pairwise
        (fun a b => b.cnt ≤ a.cnt) ∧
     (∀ o1 o2 : pw_order_t, 0 ≤ sort_by_cnt o1 o2)) :=
  ⟨by decide, C6_length_order db16 1 2 [⟨2, 1000⟩, ⟨1, 2⟩] (by decide)⟩

/-- Claim C7 counterexample: with wordlist {"a","bc"} and
`elem-cnt-min = elem-cnt-max = 2`, length 3 stores the chains `(1,2)` and
`(2,1)` — in that generation order — both with keyspace 1.  The swapped
list also satisfies everything `qsort` guarantees (a permutation
consistent with `sort_by_ks`), so the code does not determine the order
of equal-`ks_cnt` chains and nothing makes ties keep generation order. -/
theorem C7_tie_counterexample :
    genChains dbab 2 2 3 = [[1, 2], [2, 1]] ∧
    elem_ks [1, 2] dbab = 1 ∧ elem_ks [2, 1] dbab = 1 ∧
    QsortResult sort_by_ks [⟨[1, 2], 1, 0⟩, ⟨[2, 1], 1, 0⟩]
      [⟨[2, 1], 1, 0⟩, ⟨[1, 2], 1, 0⟩] ∧
    ([⟨[2, 1], 1, 0⟩, ⟨[1, 2], 1, 0⟩] : List ElemSt) ≠
      [⟨[1, 2], 1, 0⟩, ⟨[2, 1], 1, 0⟩] := by
  decide

/-- Claim C7 (amended): within a slot, the admissible `qsort` outputs for
`sort_by_ks` are exactly the permutations of the stored chains that are
non-decreasing in `ks_cnt`: the ascending order is guaranteed, but the
relative order of chains with equal `ks_cnt` is not specified (`qsort`
need not be stable), so the resulting order is not fully determined by
the code. -/
theorem C7_sorted_by_ks (l l' : List ElemSt) :
    QsortResult sort_by_ks l l' ↔
      (l'.Perm l ∧ l'.Pairwise fun a b => a.ks_cnt ≤ b.ks_cnt) := by
  rw [QsortResult]
  constructor
  · rintro ⟨hp, hw⟩
    refine ⟨hp, hw.imp ?_⟩
    intro a b hab
    rw [sort_by_ks] at hab
    split_ifs at hab <;> omega
  · rintro ⟨hp, hw⟩
    refine ⟨hp, hw.imp ?_⟩
    intro a b hab
    rw [sort_by_ks]
    split_ifs <;> omega

